import Mathlib

/-!
Verification of the RAG pipeline in `services/rag.py` of the AI_Clinical
repository.  Strings are modelled as `List Char`; Python integers as `Int`
(with Python's negative-index and slice-clamping semantics made explicit);
the external model calls (sentence embedder, cross-encoder reranker, chat
completion) are modelled as oracle parameters, and the `while` loop of the
chunker — whose termination is exactly what is in question — is modelled
with explicit fuel, `none` meaning that no amount of fuel suffices.
-/

set_option maxHeartbeats 1000000
set_option maxRecDepth 40000

namespace AIClinical

/-- A chunk, as built by `load_chunks`: `{"text": ..., "source": ...}`. -/
structure Chunk where
  text : List Char
  source : List Char
deriving DecidableEq, Repr

/-- A stored clinical template document as the pipeline reads it
(`ClinicalDocument` rows: `filename` and `content`). -/
structure TemplateDoc where
  filename : List Char
  content : List Char
deriving DecidableEq, Repr

/-- Resolution of one Python slice endpoint against a string of length `L`:
a negative endpoint counts from the end (clamped below at 0), a non-negative
one is clamped above at `L`. -/
def pyIdx (L : Nat) (i : Int) : Nat :=
  if i < 0 then ((L : Int) + i).toNat else min i.toNat L

/-- Python slice `s[a:b]`. -/
def pySlice (s : List Char) (a b : Int) : List Char :=
  (s.take (pyIdx s.length b)).drop (pyIdx s.length a)

/-- The body of `load_chunks`' `while start < len(text)` loop, with fuel.
Each iteration computes `end = min(start + chunk_size, len(text))`, appends
the chunk `text[start:end]`, and sets `start = end - overlap` (this is the
source's update: `start = end - overlap`, not `start += chunk_size - overlap`).
`none` means the fuel ran out with the guard still true. -/
def load_chunksAux (text source : List Char) (chunk_size overlap : Int) :
    Nat → Int → List Chunk → Option (List Chunk)
  | fuel, start, acc =>
    if start < (text.length : Int) then
      match fuel with
      | 0 => none
      | fuel' + 1 =>
        load_chunksAux text source chunk_size overlap fuel'
          (min (start + chunk_size) (text.length : Int) - overlap)
          (acc ++ [{ text := pySlice text start (min (start + chunk_size) (text.length : Int)),
                     source := source }])
    else some acc

/-- `load_chunks(text, source, chunk_size, overlap)` from `services/rag.py`,
run with the given fuel; the defaults in the source are
`chunk_size=200, overlap=50`. -/
def load_chunks (fuel : Nat) (text source : List Char) (chunk_size overlap : Int) :
    Option (List Chunk) :=
  load_chunksAux text source chunk_size overlap fuel 0 []

/-- Python list indexing `l[i]`: a negative index counts from the end;
an index out of range raises (modelled as `none`). -/
def pyGet (l : List Chunk) (i : Int) : Option Chunk :=
  if i < 0 then l.get? ((l.length : Int) + i).toNat
  else if i < (l.length : Int) then l.get? i.toNat
  else none

/-- Database operations on the `ClinicalDocument` table.  The write
operations are issued elsewhere in the repository (`services/service.py`);
`services/rag.py` issues only the read `db.query(ClinicalDocument).all()`. -/
inductive DbOp where
  | queryAllClinicalDocuments
  | insertClinicalDocument (d : TemplateDoc)
  | deleteClinicalDocument (filename : List Char)
deriving DecidableEq, Repr

/-- Effect of one database operation on the stored template corpus. -/
def applyDbOp (db : List TemplateDoc) : DbOp → List TemplateDoc
  | .queryAllClinicalDocuments => db
  | .insertClinicalDocument d => db ++ [d]
  | .deleteClinicalDocument f => db.filter fun t => !(t.filename == f)

def applyDbOps (db : List TemplateDoc) (ops : List DbOp) : List TemplateDoc :=
  ops.foldl applyDbOp db

/-- Invocations of the external models, for stating which collaborators a
run touches: `embedTexts` is `embed_model.encode`, `crossEncode` is
`reranker.predict`, `chatComplete` is `client.chat.completions.create`. -/
inductive Event where
  | embedTexts (texts : List (List Char))
  | crossEncode (pairs : List (List Char × List Char))
  | chatComplete (prompt : List Char)
deriving DecidableEq, Repr

/-- The external models as black-box oracles: `sim` gives the inner product
of the normalized embeddings of query and chunk text, `crossScore` the
cross-encoder relevance score of a (query, text) pair, `complete` the chat
model's response to a prompt. -/
structure Oracle where
  sim : List Char → List Char → Int
  crossScore : List Char → List Char → Int
  complete : List Char → List Char

/-- A trivial oracle instance. -/
def zeroOracle : Oracle :=
  { sim := fun _ _ => 0, crossScore := fun _ _ => 0, complete := fun _ => [] }

/-- `load_templates(db)` from the source: read all `ClinicalDocument` rows
and accumulate `load_chunks(t.content, t.filename)` over them in order,
with the source's default `chunk_size=200, overlap=50`; `none` when one of
the chunking loops never terminates. -/
def load_templatesChunks (fuel : Nat) : List TemplateDoc → Option (List Chunk)
  | [] => some []
  | t :: ts => do
    let c ← load_chunks fuel t.content t.filename 200 50
    let rest ← load_templatesChunks fuel ts
    pure (c ++ rest)

/-- Ordering used to model Python's `sorted(..., key=lambda x: x[1],
reverse=True)` on (chunk, score) pairs: `a` may precede `b` exactly when
`b`'s score does not exceed `a`'s.  Python's sort is stable, and
`List.insertionSort` with this total preorder is the stable descending
sort (stability is proved below as `rerankRanked_filter_eq`). -/
def byScoreDesc (a b : Chunk × Int) : Prop := b.2 ≤ a.2

instance : DecidableRel byScoreDesc := fun a b =>
  inferInstanceAs (Decidable (b.2 ≤ a.2))

instance : IsTotal (Chunk × Int) byScoreDesc := ⟨fun a b => le_total b.2 a.2⟩

instance : IsTrans (Chunk × Int) byScoreDesc := ⟨fun _ _ _ h1 h2 => le_trans h2 h1⟩

/-- The `ranked` list of `rerank`: `sorted(zip(chunks, scores),
key=lambda x: x[1], reverse=True)`, the cross-encoder scores being supplied
as a parallel list (position `i` scoring chunk `i`). -/
def rerankRanked (chunks : List Chunk) (scores : List Int) : List (Chunk × Int) :=
  List.insertionSort byScoreDesc (chunks.zip scores)

/-- `rerank(query, chunks)` from the source, scores supplied as a list:
empty candidates are returned unchanged; otherwise the stable descending
sort is cut to its first five pairs and projected back to chunks. -/
def rerank (chunks : List Chunk) (scores : List Int) : List Chunk :=
  if chunks = [] then chunks
  else ((rerankRanked chunks scores).take 5).map Prod.fst

/-- `rerank(query, chunks)` together with its model-invocation trace: on a
non-empty candidate list the source builds the `[query, c["text"]]` pairs
and calls `reranker.predict` once; on an empty list it returns immediately
without that call. -/
def rerankT (score : List Char → List Char → Int) (query : List Char)
    (chunks : List Chunk) : List Chunk × List Event :=
  if chunks = [] then (chunks, [])
  else (rerank chunks (chunks.map fun c => score query c.text),
        [Event.crossEncode (chunks.map fun c => (query, c.text))])

/-- Ordering of FAISS result positions: inner-product score descending,
ties by ascending stored position, on `(position, score)` pairs. -/
def faissOrder (a b : Nat × Int) : Prop :=
  b.2 < a.2 ∨ (a.2 = b.2 ∧ a.1 ≤ b.1)

instance : DecidableRel faissOrder := fun a b =>
  inferInstanceAs (Decidable (b.2 < a.2 ∨ (a.2 = b.2 ∧ a.1 ≤ b.1)))

instance : IsTotal (Nat × Int) faissOrder :=
  ⟨fun a b => by unfold faissOrder; omega⟩

instance : IsTrans (Nat × Int) faissOrder :=
  ⟨fun a b c h1 h2 => by unfold faissOrder at *; omega⟩

instance : IsAntisymm (Nat × Int) faissOrder where
  antisymm a b h1 h2 := by
    have h3 : a.1 = b.1 ∧ a.2 = b.2 := by unfold faissOrder at h1 h2; omega
    exact Prod.ext h3.1 h3.2

/-- The list of stored positions FAISS's `IndexFlatIP.search` returns.
Modelled from the FAISS contract: given the inner-product score of each
stored vector against the query (position `i` of `scores` scoring stored
vector `i`), the result labels are the positions ordered by score
descending (a deterministic tie order, here ascending position), and when
`top_k` exceeds the number of stored vectors the missing entries are padded
with the label `-1`. -/
def faissTopIdx (scores : List Int) (top_k : Nat) : List Int :=
  (((List.insertionSort faissOrder scores.enum).map fun (p : Nat × Int) => (p.1 : Int)) ++
    List.replicate (top_k - scores.length) (-1)).take top_k

/-- `search(index, query_embedding, chunks, top_k)` from the source: take
the FAISS result labels and map each through Python list indexing
`chunks[i]` (so the padding label `-1` selects the last chunk). -/
def search (scores : List Int) (chunks : List Chunk) (top_k : Nat) :
    Option (List Chunk) :=
  (faissTopIdx scores top_k).mapM (pyGet chunks)

/-- The block `generate_summary` appends to `context` for each chunk:
`f"--- TEMPLATE: {c['source']} ---\n{c['text']}\n\n"`. -/
def templateBlock (c : Chunk) : List Char :=
  "--- TEMPLATE: ".data ++ c.source ++ " ---\n".data ++ c.text ++ "\n\n".data

/-- The accumulated `context` string of `generate_summary`. -/
def contextOf (cs : List Chunk) : List Char :=
  cs.foldl (fun acc c => acc ++ templateBlock c) []

/-- The fixed prompt text preceding `{query}` in `generate_summary`. -/
def promptHead : List Char :=
  "You are a senior clinical documentation specialist at a hospital.\n\nTASK: Generate a professional, complete discharge summary based on the patient information and reference templates below.\n\nPATIENT INFORMATION:\n".data

/-- The fixed prompt text between `{query}` and `{context}`. -/
def promptMid : List Char := "\n\nREFERENCE TEMPLATES:\n".data

/-- The fixed instruction template following `{context}`: required output
sections and hard rules, verbatim from the source. -/
def promptTail : List Char :=
  "\n\nDISCHARGE SUMMARY FORMAT:\n\nPATIENT OVERVIEW:\n[Patient name, age, admission date, brief reason for admission]\n\nDIAGNOSIS:\n• Primary diagnosis:\n• Secondary diagnoses (if any):\n\nHOSPITAL COURSE & TREATMENT:\n[Summary of treatment provided, procedures performed, medications administered, and patient's response]\n\nDISCHARGE MEDICATIONS:\n• Medication name | Dosage | Frequency | Duration\n• [Continue list]\n\nDISCHARGE INSTRUCTIONS:\n• Activity restrictions:\n• Wound care (if applicable):\n• Diet recommendations:\n• Symptoms to watch for:\n\nFOLLOW-UP APPOINTMENTS:\n• Provider: [Specialty] - [Timeframe]\n• Additional tests needed:\n\nCONDITION AT DISCHARGE:\n[Patient's status - stable, improved, etc.]\n\nRULES:\n1. ONLY use information from the provided context\n2. Do NOT invent medications, diagnoses, or treatments\n3. If information is missing, write \"Not specified in records\"\n4. Use professional medical terminology\n5. Be concise but comprehensive\n6. Format as plain text without markdown\n7. Include specific dosages and frequencies when available\n\nGenerate the discharge summary now:".data

/-- The prompt `generate_summary` builds: fixed preamble, then the query,
then the context blocks, then the fixed instruction template. -/
def buildPrompt (query : List Char) (cs : List Chunk) : List Char :=
  promptHead ++ query ++ promptMid ++ contextOf cs ++ promptTail

/-- The literal returned by `rag_pipeline` when no chunks were produced. -/
def noTemplatesMsg : List Char :=
  "No templates available. Please upload templates first.".data

/-- `rag_pipeline(query, db)` from the source, with explicit fuel for the
chunking loops and the external models as oracles.  Returns the database
operations issued, the model-invocation trace, and the result text (`none`
meaning the invocation never completes). -/
def rag_pipeline (fuel : Nat) (o : Oracle) (query : List Char)
    (db : List TemplateDoc) : List DbOp × List Event × Option (List Char) :=
  match load_templatesChunks fuel db with
  | none => ([DbOp.queryAllClinicalDocuments], [], none)
  | some chunks =>
    if chunks = [] then
      ([DbOp.queryAllClinicalDocuments], [], some noTemplatesMsg)
    else
      let scores := chunks.map fun c => o.sim query c.text
      match search scores chunks 15 with
      | none =>
        ([DbOp.queryAllClinicalDocuments],
         [Event.embedTexts (chunks.map Chunk.text), Event.embedTexts [query]],
         none)
      | some retrieved =>
        let reranked := rerankT o.crossScore query retrieved
        let prompt := buildPrompt query reranked.1
        ([DbOp.queryAllClinicalDocuments],
         [Event.embedTexts (chunks.map Chunk.text), Event.embedTexts [query]] ++
           reranked.2 ++ [Event.chatComplete prompt],
         some (o.complete prompt))

/-- `containsB y s` decides whether `y` occurs contiguously in `s`. -/
def containsB (y : List Char) : List Char → Bool
  | [] => y.isPrefixOf []
  | c :: t => y.isPrefixOf (c :: t) || containsB y t

/-- `followedByB x y s` decides whether `s` contains an occurrence of `x`
followed (to its right, without overlap) by an occurrence of `y`. -/
def followedByB (x y : List Char) : List Char → Bool
  | [] => x.isPrefixOf [] && containsB y []
  | c :: t =>
    (x.isPrefixOf (c :: t) && containsB y ((c :: t).drop x.length)) ||
      followedByB x y t

/-- `s` contains an occurrence of `x` followed by one of `y`. -/
abbrev InOrder2 (x y s : List Char) : Prop :=
  ∃ a b c, s = a ++ x ++ b ++ y ++ c

/-- `s` contains occurrences of `x`, `y`, `z` in this order. -/
abbrev InOrder3 (x y z s : List Char) : Prop :=
  ∃ a b c d, s = a ++ x ++ b ++ y ++ c ++ z ++ d

theorem load_chunksAux_stop (text source : List Char) (chunk_size overlap : Int)
    (fuel : Nat) (start : Int) (acc : List Chunk)
    (h : ¬ start < (text.length : Int)) :
    load_chunksAux text source chunk_size overlap fuel start acc = some acc := by
  cases fuel <;> simp [load_chunksAux, h]

/-- Divergence invariant of the chunking loop: whenever `0 < overlap` or
`chunk_size ≤ overlap`, a state with `start < len(text)` steps to a state
with `start < len(text)` again, so the loop never exits. -/
theorem load_chunksAux_none (text source : List Char) (chunk_size overlap : Int)
    (hov : 0 < overlap ∨ chunk_size ≤ overlap) :
    ∀ (fuel : Nat) (start : Int) (acc : List Chunk),
      start < (text.length : Int) →
      load_chunksAux text source chunk_size overlap fuel start acc = none := by
  intro fuel
  induction fuel with
  | zero =>
    intro start acc h
    simp [load_chunksAux, h]
  | succ f ih =>
    intro start acc h
    have hstep : min (start + chunk_size) ((text.length : Nat) : Int) - overlap
        < ((text.length : Nat) : Int) := by omega
    simp only [load_chunksAux, if_pos h]
    exact ih _ _ hstep

/-- C1: claimed — for `chunk_size > overlap ≥ 0` (in particular the defaults
200/50) the chunking operation terminates, advancing the start offset by
`chunk_size - overlap` after each emitted window.  In the source the update
is `start = end - overlap` with `end = min(start + chunk_size, len(text))`,
so once the window is clipped at the end of the text the start offset is
reset to `len(text) - overlap < len(text)` on every iteration: for every
non-empty text the loop never terminates (no fuel suffices). -/
theorem load_chunks_diverges_on_nonempty_text (text source : List Char)
    (h : text ≠ []) (fuel : Nat) :
    load_chunks fuel text source 200 50 = none := by
  apply load_chunksAux_none text source 200 50 (Or.inl (by norm_num))
  exact_mod_cast List.length_pos.mpr h

theorem load_chunks_diverges_on_nonempty_text_witness :
    load_chunks 1000 ['a'] ['s'] 200 50 = none :=
  load_chunks_diverges_on_nonempty_text ['a'] ['s'] (by decide) 1000

/-- C2: claimed — chunking with 200/50 yields a finite chunk sequence
reconstructing the text, one whole-input chunk for inputs shorter than 200,
and `[]` for empty input.  Only the empty-input case holds: for the
one-character text "x" (shorter than `chunk_size`, so the claim promises
exactly one chunk) the loop never returns for any fuel, so no finite
sequence of chunks is produced at all. -/
theorem load_chunks_no_finite_output :
    (∀ fuel : Nat, load_chunks fuel ['x'] ['s'] 200 50 = none) ∧
    (∀ fuel : Nat, load_chunks fuel [] ['s'] 200 50 = some []) := by
  constructor
  · intro fuel
    apply load_chunksAux_none ['x'] ['s'] 200 50 (Or.inl (by norm_num))
    decide
  · intro fuel
    exact load_chunksAux_stop [] ['s'] 200 50 fuel 0 [] (by decide)

/-- C7 counterexample: claimed — every call with `chunk_size ≤ overlap`
fails with an `InvalidConfiguration` error rather than proceeding.  The
source performs no configuration validation at all (no such error exists in
the repository): with `chunk_size = overlap = 50` the call on the empty
text proceeds and returns a normal empty result, and on the text "y" it
proceeds into the loop and never returns. -/
theorem load_chunks_no_config_validation_cx :
    load_chunks 0 [] ['s'] 50 50 = some [] ∧
    (∀ fuel : Nat, load_chunks fuel ['y'] ['s'] 50 50 = none) := by
  constructor
  · exact load_chunksAux_stop [] ['s'] 50 50 0 0 [] (by decide)
  · intro fuel
    apply load_chunksAux_none ['y'] ['s'] 50 50 (Or.inr (by norm_num))
    decide

/-- C7 amended: `load_chunks` enforces no precondition; called with
`chunk_size ≤ overlap` it proceeds without raising any error: on the empty
text it returns the empty chunk list, and on any non-empty text it makes no
forward progress and never terminates. -/
theorem load_chunks_invalid_config_behavior (text source : List Char)
    (chunk_size overlap : Int) (hle : chunk_size ≤ overlap) :
    (text = [] → ∀ fuel : Nat,
        load_chunks fuel text source chunk_size overlap = some []) ∧
    (text ≠ [] → ∀ fuel : Nat,
        load_chunks fuel text source chunk_size overlap = none) := by
  constructor
  · intro he fuel
    subst he
    exact load_chunksAux_stop [] source chunk_size overlap fuel 0 [] (by decide)
  · intro hne fuel
    apply load_chunksAux_none text source chunk_size overlap (Or.inr hle)
    exact_mod_cast List.length_pos.mpr hne

theorem load_chunks_invalid_config_behavior_witness :
    (load_chunks 7 [] ['s'] 50 50 = some []) ∧
    (load_chunks 7 ['y', 'z'] ['s'] 50 50 = none) :=
  ⟨(load_chunks_invalid_config_behavior [] ['s'] 50 50 (by norm_num)).1 rfl 7,
   (load_chunks_invalid_config_behavior ['y', 'z'] ['s'] 50 50 (by norm_num)).2
     (by decide) 7⟩

/-- C4: on a corpus with zero templates the pipeline issues only the read,
invokes no model (empty event trace), and returns the literal message
"No templates available. Please upload templates first.". -/
theorem rag_pipeline_empty_corpus (fuel : Nat) (o : Oracle) (query : List Char) :
    rag_pipeline fuel o query [] =
      ([DbOp.queryAllClinicalDocuments], [], some noTemplatesMsg) := by
  rfl

/-- C8: `rerank` invoked on the empty candidate list returns the empty list
with an empty model-invocation trace (no call to `reranker.predict`). -/
theorem rerank_empty_no_model_call (score : List Char → List Char → Int)
    (query : List Char) : rerankT score query [] = ([], []) := by
  rfl

theorem load_templatesChunks_all_empty (fuel : Nat) :
    ∀ db : List TemplateDoc, (∀ t ∈ db, t.content = []) →
      load_templatesChunks fuel db = some [] := by
  intro db
  induction db with
  | nil => intro _; rfl
  | cons t ts ih =>
    intro h
    have h1 : load_chunks fuel t.content t.filename 200 50 = some [] := by
      rw [h t (by simp)]
      exact load_chunksAux_stop [] t.filename 200 50 fuel 0 [] (by decide)
    simp [load_templatesChunks, h1, ih fun u hu => h u (by simp [hu])]

/-- C10: if every stored template has empty content, the derived chunk list
is empty, so the pipeline takes the same early exit as a zero-template
corpus: it returns the literal "No templates available. ..." message with
no model invoked. -/
theorem rag_pipeline_all_empty_contents (fuel : Nat) (o : Oracle)
    (query : List Char) (db : List TemplateDoc)
    (h : ∀ t ∈ db, t.content = []) :
    rag_pipeline fuel o query db =
      ([DbOp.queryAllClinicalDocuments], [], some noTemplatesMsg) := by
  unfold rag_pipeline
  rw [load_templatesChunks_all_empty fuel db h]
  rfl

theorem rag_pipeline_all_empty_contents_witness :
    rag_pipeline 3 zeroOracle ['q'] [{ filename := "a.txt".data, content := [] }] =
      ([DbOp.queryAllClinicalDocuments], [], some noTemplatesMsg) :=
  rag_pipeline_all_empty_contents 3 zeroOracle ['q']
    [{ filename := "a.txt".data, content := [] }] (by simp)

/-- C9: a pipeline invocation issues only the read
`db.query(ClinicalDocument).all()` against storage, so replaying its
database operations leaves the stored template corpus unchanged — in every
case, including early exits and non-terminating chunking. -/
theorem rag_pipeline_no_writes (fuel : Nat) (o : Oracle) (query : List Char)
    (db : List TemplateDoc) :
    applyDbOps db (rag_pipeline fuel o query db).1 = db := by
  have h1 : (rag_pipeline fuel o query db).1 = [DbOp.queryAllClinicalDocuments] := by
    unfold rag_pipeline
    cases load_templatesChunks fuel db with
    | none => rfl
    | some chunks =>
      by_cases hc : chunks = []
      · simp [hc]
      · simp only [if_neg hc]
        cases search (chunks.map fun c => o.sim query c.text) chunks 15 <;> rfl
  rw [h1]
  rfl

theorem containsB_iff (y : List Char) :
    ∀ s : List Char, containsB y s = true ↔ ∃ a c, s = a ++ y ++ c := by
  intro s
  induction s with
  | nil =>
    simp only [containsB]
    rw [List.isPrefixOf_iff_prefix, List.prefix_nil]
    constructor
    · rintro rfl
      exact ⟨[], [], rfl⟩
    · rintro ⟨a, c, h⟩
      have h2 := congrArg List.length h
      simp at h2
      exact List.length_eq_zero.mp (by omega)
  | cons ch t ih =>
    simp only [containsB, Bool.or_eq_true]
    constructor
    · rintro (h | h)
      · obtain ⟨r, hr⟩ := List.isPrefixOf_iff_prefix.mp h
        exact ⟨[], r, by simp [← hr]⟩
      · obtain ⟨a, c, rfl⟩ := ih.mp h
        exact ⟨ch :: a, c, rfl⟩
    · rintro ⟨a, c, h⟩
      cases a with
      | nil =>
        left
        rw [List.isPrefixOf_iff_prefix]
        exact ⟨c, by simp [h]⟩
      | cons a0 a' =>
        right
        apply ih.mpr
        refine ⟨a', c, ?_⟩
        simp only [List.cons_append] at h
        injection h with h1 h2

theorem followedByB_of (x y : List Char) (s : List Char)
    (h1 : x.isPrefixOf s = true) (h2 : containsB y (s.drop x.length) = true) :
    followedByB x y s = true := by
  cases s with
  | nil =>
    simp only [followedByB, Bool.and_eq_true]
    refine ⟨h1, ?_⟩
    simpa using h2
  | cons c t =>
    simp only [followedByB, Bool.or_eq_true, Bool.and_eq_true]
    exact Or.inl ⟨h1, h2⟩

theorem followedByB_iff (x y : List Char) :
    ∀ s : List Char, followedByB x y s = true ↔ InOrder2 x y s := by
  intro s
  induction s with
  | nil =>
    constructor
    · intro h
      simp only [followedByB, Bool.and_eq_true] at h
      obtain ⟨h1, h2⟩ := h
      rw [List.isPrefixOf_iff_prefix, List.prefix_nil] at h1
      rw [containsB_iff] at h2
      obtain ⟨a, c, hac⟩ := h2
      have h3 := congrArg List.length hac
      simp at h3
      have hy : y = [] := List.length_eq_zero.mp (by omega)
      exact ⟨[], [], [], by simp [h1, hy]⟩
    · rintro ⟨a, b, c, h⟩
      have h2 := congrArg List.length h
      simp at h2
      have hx : x = [] := List.length_eq_zero.mp (by omega)
      have hy : y = [] := List.length_eq_zero.mp (by omega)
      subst hx
      subst hy
      decide
  | cons c t ih =>
    constructor
    · intro h
      simp only [followedByB, Bool.or_eq_true, Bool.and_eq_true] at h
      rcases h with ⟨h1, h2⟩ | h
      · obtain ⟨r, hr⟩ := List.isPrefixOf_iff_prefix.mp h1
        have hdrop : (c :: t).drop x.length = r := by
          rw [← hr, List.drop_left]
        rw [hdrop, containsB_iff] at h2
        obtain ⟨b, d, rfl⟩ := h2
        exact ⟨[], b, d, by simp [← hr]⟩
      · obtain ⟨a, b, d, rfl⟩ := ih.mp h
        exact ⟨c :: a, b, d, rfl⟩
    · rintro ⟨a, b, d, h⟩
      cases a with
      | nil =>
        simp only [List.nil_append] at h
        apply followedByB_of
        · rw [List.isPrefixOf_iff_prefix]
          exact ⟨b ++ y ++ d, by simp [h]⟩
        · rw [h]
          have : (x ++ (b ++ (y ++ d))).drop x.length = b ++ (y ++ d) :=
            List.drop_left x (b ++ (y ++ d))
          rw [List.append_assoc, List.append_assoc] at *
          rw [this]
          exact (containsB_iff y _).mpr ⟨b, d, by simp⟩
      | cons a0 a' =>
        simp only [followedByB, Bool.or_eq_true]
        right
        apply ih.mpr
        refine ⟨a', b, d, ?_⟩
        simp only [List.cons_append] at h
        injection h with h1 h2

theorem InOrder3.weaken {x y z s : List Char} (h : InOrder3 x y z s) :
    InOrder2 x y s := by
  obtain ⟨a, b, c, d, rfl⟩ := h
  exact ⟨a, b, c ++ z ++ d, by simp⟩

theorem foldl_append_blocks (f : Chunk → List Char) :
    ∀ (cs : List Chunk) (acc : List Char),
      cs.foldl (fun a c => a ++ f c) acc = acc ++ (cs.map f).flatten := by
  intro cs
  induction cs with
  | nil => intro acc; simp
  | cons c t ih => intro acc; simp [ih, List.append_assoc]

theorem contextOf_eq_join (cs : List Chunk) :
    contextOf cs = (cs.map templateBlock).flatten := by
  simpa using foldl_append_blocks templateBlock cs []

/-- C5 counterexample: at the query "Q" and the single context chunk with
text "T" and source "cardiac_v1", the generator's prompt does not contain
the labeled context block followed by the query followed by the instruction
template — in the source the query is interpolated before the context
blocks, not after them. -/
theorem generate_summary_prompt_order_cx :
    ¬ InOrder3 (contextOf [{ text := ['T'], source := "cardiac_v1".data }]) ['Q']
        promptTail
        (buildPrompt ['Q'] [{ text := ['T'], source := "cardiac_v1".data }]) :=
  fun h => absurd ((followedByB_iff _ _ _).mpr h.weaken) (by decide)

/-- C5 amended: the prompt `generate_summary` builds contains the query,
followed by the context concatenation — for each context item in order the
labeled block `"--- TEMPLATE: {source} ---\n{text}\n\n"` — followed by the
fixed instruction template. -/
theorem generate_summary_prompt_order (query : List Char) (ctx : List Chunk) :
    contextOf ctx = (ctx.map templateBlock).flatten ∧
    InOrder3 query (contextOf ctx) promptTail (buildPrompt query ctx) := by
  refine ⟨contextOf_eq_join ctx, promptHead, promptMid, [], [], ?_⟩
  simp [buildPrompt, List.append_assoc]

theorem filter_orderedInsert {α : Type} (r : α → α → Prop) [DecidableRel r]
    (P : α → Bool) (a : α) :
    ∀ l : List α, (∀ b ∈ l, P a = true → ¬ r a b → P b = false) →
      (l.orderedInsert r a).filter P =
        if P a then a :: l.filter P else l.filter P := by
  intro l
  induction l with
  | nil =>
    intro _
    cases hpa : P a <;> simp [List.orderedInsert, List.filter, hpa]
  | cons b t ih =>
    intro hP
    by_cases hr : r a b
    · simp only [List.orderedInsert, if_pos hr]
      cases hpa : P a <;> simp [List.filter_cons, hpa]
    · simp only [List.orderedInsert, if_neg hr]
      have ih2 := ih fun c hc h1 h2 => hP c (by simp [hc]) h1 h2
      cases hpa : P a
      · simp [List.filter_cons, ih2, hpa]
      · have hb : P b = false := hP b (by simp) hpa hr
        simp [List.filter_cons, hb, ih2, hpa]

theorem filter_insertionSort {α : Type} (r : α → α → Prop) [DecidableRel r]
    (P : α → Bool) (hP : ∀ a b, P a = true → ¬ r a b → P b = false) :
    ∀ l : List α, (List.insertionSort r l).filter P = l.filter P := by
  intro l
  induction l with
  | nil => rfl
  | cons a t ih =>
    simp only [List.insertionSort]
    rw [filter_orderedInsert r P a _ fun b _ h1 h2 => hP a b h1 h2]
    cases hpa : P a <;> simp [List.filter_cons, hpa, ih]

/-- C6: on a non-empty candidate list, with one cross-encoder score per
candidate, `rerank` returns `min 5 n` chunks: the projection of the first
five entries of the ranked list, which is sorted descending by score; ties
keep the original candidate order (for every score value the equally-scored
pairs of the ranked list are exactly those of the input, in input order —
the stable-sort property); and every returned chunk is one of the input
candidates. -/
theorem rerank_spec (chunks : List Chunk) (scores : List Int)
    (hne : chunks ≠ []) (hlen : scores.length = chunks.length) :
    (rerank chunks scores).length = min 5 chunks.length ∧
    rerank chunks scores = ((rerankRanked chunks scores).take 5).map Prod.fst ∧
    List.Sorted byScoreDesc ((rerankRanked chunks scores).take 5) ∧
    (∀ v : Int, (rerankRanked chunks scores).filter (fun p => p.2 == v) =
        (chunks.zip scores).filter (fun p => p.2 == v)) ∧
    (∀ c ∈ rerank chunks scores, c ∈ chunks) := by
  have hr : rerank chunks scores =
      ((rerankRanked chunks scores).take 5).map Prod.fst := by
    simp [rerank, hne]
  have hperm : (rerankRanked chunks scores).Perm (chunks.zip scores) :=
    List.perm_insertionSort byScoreDesc _
  refine ⟨?_, hr, ?_, ?_, ?_⟩
  · rw [hr, List.length_map, List.length_take, hperm.length_eq,
      List.length_zip, hlen, min_self]
  · exact List.Pairwise.sublist (List.take_sublist 5 _)
      (List.sorted_insertionSort byScoreDesc _)
  · intro v
    refine filter_insertionSort byScoreDesc (fun p => p.2 == v)
      (fun a b ha hnr => ?_) _
    have ha2 : a.2 = v := by simpa using ha
    have hlt : a.2 < b.2 := by
      simpa [byScoreDesc] using hnr
    simp only [beq_eq_false_iff_ne, ne_eq]
    omega
  · intro c hc
    rw [hr] at hc
    obtain ⟨p, hp, rfl⟩ := List.mem_map.mp hc
    have hp2 : p ∈ rerankRanked chunks scores :=
      (List.take_sublist 5 _).subset hp
    have hp3 : p ∈ chunks.zip scores := hperm.subset hp2
    obtain ⟨c, s⟩ := p
    exact (List.of_mem_zip hp3).1

theorem rerank_spec_witness :
    (rerank [{ text := ['a'], source := [] }, { text := ['b'], source := [] },
             { text := ['c'], source := [] }] [1, 3, 1]).length = min 5 3 :=
  (rerank_spec
    [{ text := ['a'], source := [] }, { text := ['b'], source := [] },
     { text := ['c'], source := [] }] [1, 3, 1]
    (by decide) (by decide)).1

theorem mapM_eq_some_map {α β : Type} (f : α → Option β) (g : α → β) :
    ∀ l : List α, (∀ x ∈ l, f x = some (g x)) → l.mapM f = some (l.map g) := by
  intro l
  induction l with
  | nil => intro _; rfl
  | cons a t ih =>
    intro h
    rw [List.mapM_cons, h a (by simp), ih fun x hx => h x (by simp [hx])]
    rfl

theorem pyGet_nonneg (l : List Chunk) (n : Nat) (h : n < l.length) :
    pyGet l (n : Int) = some (l.getD n { text := [], source := [] }) := by
  unfold pyGet
  rw [if_neg (by omega), if_pos (by exact_mod_cast h)]
  rw [Int.toNat_ofNat, List.get?_eq_getElem?, List.getElem?_eq_getElem h,
    List.getD_eq_getElem l _ h]

theorem pyGet_neg_one (l : List Chunk) (h : l ≠ []) :
    pyGet l (-1) = some (l.getLast h) := by
  have hlen : 0 < l.length := List.length_pos.mpr h
  unfold pyGet
  rw [if_pos (by norm_num)]
  have h1 : ((l.length : Int) + (-1)).toNat = l.length - 1 := by omega
  rw [h1, List.get?_eq_getElem?, List.getElem?_eq_getElem (by omega),
    List.getLast_eq_getElem]

theorem map_enum_pair_eq_zip (chunks : List Chunk) (scores : List Int)
    (hlen : scores.length = chunks.length) :
    scores.enum.map (fun p => (chunks.getD p.1 { text := [], source := [] }, p.2)) =
      chunks.zip scores := by
  apply List.ext_get
  · simp [List.enum_length, List.length_zip, hlen]
  · intro i h1 h2
    have hi : i < scores.length := by
      simpa [List.enum_length] using h1
    have hic : i < chunks.length := by omega
    simp [List.getElem_map, List.getElem_enum, List.getElem_zip,
      List.getElem?_eq_getElem hic]

theorem faissTopIdx_of_lt (scores : List Int) (top_k : Nat)
    (hk : scores.length < top_k) :
    faissTopIdx scores top_k =
      ((List.insertionSort faissOrder scores.enum).map
          fun (p : Nat × Int) => (p.1 : Int)) ++
        List.replicate (top_k - scores.length) (-1) := by
  unfold faissTopIdx
  apply List.take_of_length_le
  simp [(List.perm_insertionSort faissOrder scores.enum).length_eq,
    List.enum_length]
  omega

/-- C3 amended: when `top_k` exceeds the number `n ≥ 1` of indexed vectors,
`search` does not return the `n` entries exactly once: it returns a
`top_k`-long sequence whose first `n` elements are the indexed chunks, each
exactly once, ordered by similarity descending, followed by
`top_k - n` repetitions of the last stored chunk (FAISS pads the missing
result labels with `-1`, which Python's negative indexing resolves to the
last list element), and it raises no error. -/
theorem search_topk_exceeds (chunks : List Chunk) (scores : List Int)
    (top_k : Nat) (hne : chunks ≠ []) (hlen : scores.length = chunks.length)
    (hk : chunks.length < top_k) :
    ∃ ps : List (Chunk × Int),
      ps.Perm (chunks.zip scores) ∧
      List.Sorted (fun a b => b.2 ≤ a.2) ps ∧
      search scores chunks top_k =
        some (ps.map Prod.fst ++
          List.replicate (top_k - chunks.length) (chunks.getLast hne)) := by
  have hklen : scores.length < top_k := by omega
  refine ⟨(List.insertionSort faissOrder scores.enum).map
    (fun p => (chunks.getD p.1 { text := [], source := [] }, p.2)), ?_, ?_, ?_⟩
  · have hp := (List.perm_insertionSort faissOrder scores.enum).map
      (fun p => (chunks.getD p.1 { text := [], source := [] }, p.2))
    rw [map_enum_pair_eq_zip chunks scores hlen] at hp
    exact hp
  · rw [List.Sorted, List.pairwise_map]
    refine (List.sorted_insertionSort faissOrder scores.enum).imp ?_
    intro a b hab
    rcases hab with h | ⟨h, _⟩
    · exact le_of_lt h
    · exact le_of_eq h.symm
  · rw [search, faissTopIdx_of_lt scores top_k hklen]
    have hmem : ∀ p ∈ List.insertionSort faissOrder scores.enum,
        p.1 < chunks.length := by
      intro p hp
      have hp2 : p ∈ scores.enum :=
        (List.perm_insertionSort faissOrder scores.enum).subset hp
      have hp3 := List.mem_enum_iff_get?.mp hp2
      obtain ⟨hb, _⟩ := List.get?_eq_some.mp hp3
      omega
    have hg : ∀ x ∈ ((List.insertionSort faissOrder scores.enum).map
        fun (p : Nat × Int) => (p.1 : Int)) ++
          List.replicate (top_k - scores.length) (-1),
        pyGet chunks x = some (if x < 0 then chunks.getLast hne
          else chunks.getD x.toNat { text := [], source := [] }) := by
      intro x hx
      rcases List.mem_append.mp hx with hx | hx
      · obtain ⟨p, hp, rfl⟩ := List.mem_map.mp hx
        have hplt := hmem p hp
        rw [if_neg (by omega), Int.toNat_ofNat]
        exact pyGet_nonneg chunks p.1 hplt
      · have hx1 : x = -1 := List.eq_of_mem_replicate hx
        subst hx1
        rw [if_pos (by norm_num)]
        exact pyGet_neg_one chunks hne
    rw [mapM_eq_some_map (pyGet chunks) _ _ hg]
    congr 1
    rw [List.map_append, List.map_map, List.map_map, List.map_replicate]
    have e2 : (if (-1 : Int) < 0 then chunks.getLast hne
        else chunks.getD (-1 : Int).toNat { text := [], source := [] }) =
        chunks.getLast hne := by
      rw [if_pos (by norm_num)]
    have e1 : ((fun i : Int => if i < 0 then chunks.getLast hne
          else chunks.getD i.toNat { text := [], source := [] }) ∘
        fun (p : Nat × Int) => (p.1 : Int)) =
        fun p : Nat × Int =>
          ((fun p : Nat × Int =>
            (chunks.getD p.1 { text := [], source := [] }, p.2)) p).1 := by
      funext p
      simp only [Function.comp_apply]
      rw [if_neg (by omega), Int.toNat_ofNat]
    rw [e1, e2, hlen]
    rfl

/-- C3 counterexample: an index built from a single vector (one chunk),
searched with `top_k = 15`, does not return exactly that one entry exactly
once: FAISS pads the 14 missing labels with `-1` and Python's `chunks[-1]`
maps each of them to the last chunk, so the result is fifteen copies of the
single indexed chunk. -/
theorem search_topk_exceeds_cx :
    search [7] [({ text := ['t'], source := ['s'] } : Chunk)] 15 =
      some (List.replicate 15 ({ text := ['t'], source := ['s'] } : Chunk)) ∧
    List.replicate 15 ({ text := ['t'], source := ['s'] } : Chunk) ≠
      [({ text := ['t'], source := ['s'] } : Chunk)] := by
  constructor <;> decide

theorem search_topk_exceeds_witness :
    ∃ ps : List (Chunk × Int),
      ps.Perm ([({ text := ['t'], source := ['s'] } : Chunk)].zip [7]) ∧
      List.Sorted (fun a b => b.2 ≤ a.2) ps ∧
      search [7] [({ text := ['t'], source := ['s'] } : Chunk)] 15 =
        some (ps.map Prod.fst ++
          List.replicate (15 - 1)
            ([({ text := ['t'], source := ['s'] } : Chunk)].getLast
              (by decide))) :=
  search_topk_exceeds [({ text := ['t'], source := ['s'] } : Chunk)] [7] 15
    (by decide) (by decide) (by decide)
